import Mathlib

/-!
Verification of the fs-ingest-daemon core against its specification.

The Go sources are shallowly embedded: the SQLite-backed state store
(internal/store/store.go) becomes a pure transition system over a list of
records, the pruner (internal/pruner/pruner.go, watermark variant) becomes a
fuelled eviction loop over that store plus a model filesystem, the upload
pipeline (internal/ingest uploader) becomes a function from a record and an
environment of remote-call outcomes to the calls issued and the store
mutations committed, and the path-metadata helper (internal/util/metadata.go)
is embedded over character lists together with the pieces of Go's
path/filepath functions (Clean, Join, Dir, Rel, Ext) that it uses.
Timestamps and durations are modelled as integers (nanoseconds for
durations, as in Go's time.Duration).
-/

namespace FsIngest

/-- File processing states, mirroring the FileStatus constants of store.go. -/
inductive FileStatus where
  | pending
  | uploaded
  | awaitingPartner
  | orphan
deriving DecidableEq, Repr

/-- A row of the files table (store.go FileRecord).  uploadedAt and
partnerPath are nullable columns. -/
structure FileRecord where
  id : Nat
  path : String
  size : Int
  modTime : Int
  status : FileStatus
  uploadedAt : Option Int
  partnerPath : Option String
deriving DecidableEq, Repr

/-- The files table plus the AUTOINCREMENT counter. -/
structure DB where
  nextId : Nat
  recs : List FileRecord
deriving DecidableEq, Repr

/-- A fresh store, as created by migrate. -/
def emptyDB : DB := { nextId := 1, recs := [] }

/-- strings.HasSuffix over the character sequences. -/
def hasSuffix (s suffix : String) : Bool := suffix.data.isSuffixOf s.data

/-- strings.TrimSuffix: drop the suffix when present, otherwise unchanged. -/
def trimSuffix (s suffix : String) : String :=
  if hasSuffix s suffix then
    String.mk (s.data.take (s.data.length - suffix.data.length))
  else s

/-- The partner path computed at the top of Store.RegisterFile: an image
expects path + .json, a metadata file expects its own path minus .json. -/
def partnerPathOf (path : String) (isMeta : Bool) : String :=
  if !isMeta then path ++ (".json") else trimSuffix path (".json")

/-- The INSERT ... ON CONFLICT(path) DO UPDATE statement of RegisterFile:
on conflict it overwrites size, mod_time, status and partner_path and leaves
uploaded_at alone; a fresh row gets uploaded_at NULL and the next id. -/
def upsert (db : DB) (path : String) (size modTime : Int)
    (status : FileStatus) (pp : Option String) : DB :=
  if db.recs.any (fun r => r.path == path) then
    { db with recs := db.recs.map (fun r =>
        if r.path = path then
          { r with size := size, modTime := modTime, status := status, partnerPath := pp }
        else r) }
  else
    { nextId := db.nextId + 1
      recs := db.recs ++ [{ id := db.nextId, path := path, size := size,
                            modTime := modTime, status := status,
                            uploadedAt := none, partnerPath := pp }] }

/-- Store.RegisterFile (store.go lines 91-189, the variant with the
double-extension pairing rule and the expectSidecar flag). -/
def registerFile (db : DB) (path : String) (size modTime : Int)
    (isMeta expectSidecar : Bool) : DB :=
  let partnerPath := partnerPathOf path isMeta
  match db.recs.find? (fun r => r.path == partnerPath) with
  | none =>
    let pp : Option String := if partnerPath ≠ "" then some partnerPath else none
    let initialStatus :=
      if !isMeta && !expectSidecar then FileStatus.pending else FileStatus.awaitingPartner
    upsert db path size modTime initialStatus pp
  | some partner =>
    let db1 := upsert db path size modTime FileStatus.pending (some partnerPath)
    { db1 with recs := db1.recs.map (fun r =>
        if r.id = partner.id then
          { r with status := FileStatus.pending, partnerPath := some path }
        else r) }

/-- Store.MarkOrphans: move AWAITING_PARTNER records older than now - timeout
to ORPHAN. -/
def markOrphans (db : DB) (now timeout : Int) : DB :=
  { db with recs := db.recs.map (fun r =>
      if r.status = FileStatus.awaitingPartner ∧ r.modTime < now - timeout then
        { r with status := FileStatus.orphan }
      else r) }

/-- Store.MarkUploaded: set status UPLOADED and uploaded_at now on the row
with the given path. -/
def markUploaded (db : DB) (path : String) (now : Int) : DB :=
  { db with recs := db.recs.map (fun r =>
      if r.path = path then
        { r with status := FileStatus.uploaded, uploadedAt := some now }
      else r) }

/-- Store.RemoveFile: DELETE FROM files WHERE path = ?.  Nothing else is
touched. -/
def removeFile (db : DB) (path : String) : DB :=
  { db with recs := db.recs.filter (fun r => r.path ≠ path) }

/-- Store.GetTotalSize: the sum of the sizes of all records. -/
def getTotalSize (db : DB) : Int :=
  (db.recs.map (fun r => r.size)).sum

/-- The mod_time ordering used by the ORDER BY mod_time ASC queries.  SQL
leaves the order of ties unspecified; the model fixes one sort. -/
def modTimeLe (a b : FileRecord) : Prop := a.modTime ≤ b.modTime

instance : DecidableRel modTimeLe := fun a b => by
  unfold modTimeLe; infer_instance

instance : IsTotal FileRecord modTimeLe :=
  ⟨fun a b => Int.le_total a.modTime b.modTime⟩

instance : IsTrans FileRecord modTimeLe :=
  ⟨fun _ _ _ h1 h2 => Int.le_trans h1 h2⟩

/-- Store.GetPruneCandidates: UPLOADED records, oldest mod_time first,
capped at limit. -/
def getPruneCandidates (db : DB) (limit : Nat) : List FileRecord :=
  (List.insertionSort modTimeLe
    (db.recs.filter (fun r => r.status == FileStatus.uploaded))).take limit

/-- Store.GetPendingFiles: PENDING and ORPHAN records, oldest first. -/
def getPendingFiles (db : DB) (limit : Nat) : List FileRecord :=
  (List.insertionSort modTimeLe
    (db.recs.filter (fun r =>
      r.status == FileStatus.pending || r.status == FileStatus.orphan))).take limit

/-- A lower bound for all mod_times in the store. -/
def modFloor (db : DB) : Int := (db.recs.map (fun r => r.modTime)).foldr min 0

/-- One committed store operation, with its call-time arguments. -/
inductive StoreOp where
  | register (path : String) (size modTime : Int) (isMeta expectSidecar : Bool)
  | orphans (now timeout : Int)
  | upload (path : String) (now : Int)
  | remove (path : String)

/-- Apply one store operation. -/
def applyOp (db : DB) : StoreOp → DB
  | StoreOp.register path size modTime isMeta expectSidecar =>
      registerFile db path size modTime isMeta expectSidecar
  | StoreOp.orphans now timeout => markOrphans db now timeout
  | StoreOp.upload path now => markUploaded db path now
  | StoreOp.remove path => removeFile db path

/-- Run a sequence of store operations from the fresh store. -/
def runOps (ops : List StoreOp) : DB := ops.foldl applyOp emptyDB

/-- The status of the record at a path, when present. -/
def statusOf (db : DB) (path : String) : Option FileStatus :=
  (db.recs.find? (fun r => r.path == path)).map (fun r => r.status)

/-- The partner_path column of the record at a path, when present. -/
def partnerOf (db : DB) (path : String) : Option (Option String) :=
  (db.recs.find? (fun r => r.path == path)).map (fun r => r.partnerPath)

/-- The uploaded_at column of the record at a path, when present. -/
def uploadedAtOf (db : DB) (path : String) : Option (Option Int) :=
  (db.recs.find? (fun r => r.path == path)).map (fun r => r.uploadedAt)

/-! ### Pruner (internal/pruner/pruner.go, watermark variant)

The filesystem is modelled by the list of present files plus a set of paths
whose unlink fails with an error other than ENOENT; os.Remove on any other
path succeeds or yields ENOENT, and ENOENT is treated as success by Prune. -/

/-- The model filesystem seen by the pruner. -/
structure FS where
  files : List String
  failing : List String
deriving DecidableEq, Repr

/-- Outcome of os.Remove in the model. -/
inductive UnlinkResult where
  | ok
  | enoent
  | failed
deriving DecidableEq, Repr

/-- os.Remove: fails on failing paths, removes present files, ENOENT
otherwise. -/
def osRemove (fs : FS) (p : String) : UnlinkResult × FS :=
  if p ∈ fs.failing then (UnlinkResult.failed, fs)
  else if p ∈ fs.files then
    (UnlinkResult.ok, { fs with files := fs.files.filter (fun q => q ≠ p) })
  else (UnlinkResult.enoent, fs)

/-- One successful eviction inside a prune cycle: the record removed and the
pruner's running total just before the decrement. -/
structure DelEvent where
  record : FileRecord
  totalBefore : Int
deriving DecidableEq, Repr

/-- Result of a prune cycle: final store, filesystem and running total, the
unlink attempts in order, the successful evictions in order, and whether the
back-pressure warning fired. -/
structure PruneOut where
  db : DB
  fs : FS
  size : Int
  unlinked : List String
  deleted : List DelEvent
  backpressure : Bool
deriving DecidableEq, Repr

/-- Result of one inner candidate loop of Prune over a fetched batch. -/
structure BatchOut where
  db : DB
  fs : FS
  size : Int
  unlinked : List String
  deleted : List DelEvent
  count : Nat
deriving DecidableEq, Repr

/-- The inner candidate loop of Pruner.Prune: attempt unlink (a non-ENOENT
error skips the record), remove the DB record, decrement the running total,
and break once the total reaches the low watermark. -/
def processBatch (low : Int) :
    DB → FS → Int → List FileRecord → BatchOut
  | db, fs, size, [] =>
    { db := db, fs := fs, size := size, unlinked := [], deleted := [], count := 0 }
  | db, fs, size, f :: rest =>
    let step := osRemove fs f.path
    if step.1 = UnlinkResult.failed then
      let out := processBatch low db step.2 size rest
      { out with unlinked := f.path :: out.unlinked }
    else
      let db1 := removeFile db f.path
      let size1 := size - f.size
      if size1 ≤ low then
        { db := db1, fs := step.2, size := size1, unlinked := [f.path],
          deleted := [{ record := f, totalBefore := size }], count := 1 }
      else
        let out := processBatch low db1 step.2 size1 rest
        { out with unlinked := f.path :: out.unlinked,
                   deleted := { record := f, totalBefore := size } :: out.deleted,
                   count := out.count + 1 }

/-- The outer eviction loop of Pruner.Prune.  The fuel argument dominates the
iteration count; in the Go code the loop terminates because every iteration
that continues has deleted at least one record, so a fuel of one more than
the record count (as supplied by pruneGo) is never exhausted. -/
def pruneLoop (low : Int) (batch : Nat) :
    Nat → DB → FS → Int → PruneOut
  | 0, db, fs, size =>
    { db := db, fs := fs, size := size, unlinked := [], deleted := [], backpressure := false }
  | fuel + 1, db, fs, size =>
    if size > low then
      let cands := getPruneCandidates db batch
      if cands.isEmpty then
        { db := db, fs := fs, size := size, unlinked := [], deleted := [], backpressure := true }
      else
        let out := processBatch low db fs size cands
        if out.count = 0 then
          { db := out.db, fs := out.fs, size := out.size,
            unlinked := out.unlinked, deleted := out.deleted, backpressure := false }
        else
          let r := pruneLoop low batch fuel out.db out.fs out.size
          { db := r.db, fs := r.fs, size := r.size,
            unlinked := out.unlinked ++ r.unlinked,
            deleted := out.deleted ++ r.deleted,
            backpressure := r.backpressure }
    else
      { db := db, fs := fs, size := size, unlinked := [], deleted := [], backpressure := false }

/-- Pruner.Prune given the two watermarks in bytes: read the total size,
return immediately when at or below the high watermark, otherwise run the
eviction loop down towards the low watermark. -/
def pruneGo (db : DB) (fs : FS) (high low : Int) (batch : Nat) : PruneOut :=
  let size := getTotalSize db
  if size ≤ high then
    { db := db, fs := fs, size := size, unlinked := [], deleted := [], backpressure := false }
  else pruneLoop low batch (db.recs.length + 1) db fs size

/-- The watermark-in-bytes computation of Prune (lines 177-187): percents at
or below zero fall back to the defaults 90 and 75, and the byte value is the
budget times the percent over one hundred.  Go computes the product in
float64 and truncates; on the exact instances used below the two agree. -/
def watermarkBytes (maxBytes pct : Int) : Int := maxBytes * pct / 100

/-- A full prune cycle from the configured budget and watermark percents. -/
def pruneCycle (db : DB) (fs : FS) (maxBytes highPct lowPct : Int) (batch : Nat) : PruneOut :=
  pruneGo db fs
    (watermarkBytes maxBytes (if highPct ≤ 0 then 90 else highPct))
    (watermarkBytes maxBytes (if lowPct ≤ 0 then 75 else lowPct))
    batch

/-! ### Upload pipeline (the ingest Uploader.Process function)

Remote interaction and file reads are abstracted by an environment fixing
the outcome of each step; the function returns the remote calls issued and
the store mutations committed, in order. -/

/-- filepath.Ext: the suffix of the final path element starting at its last
dot, or the empty string.  extScan walks the characters from the end,
carrying the characters already passed. -/
def extScan : List Char → List Char → String
  | _, [] => ""
  | seen, c :: rest =>
    if c = '/' then ""
    else if c = '.' then String.mk (c :: seen)
    else extScan (c :: seen) rest

/-- filepath.Ext over the model of paths as strings. -/
def filepathExt (p : String) : String := extScan [] p.data.reverse

/-- Outcome of the checksum goroutine (calculateSHA256). -/
inductive HashOutcome where
  | ok (sum : String)
  | notExist
  | readErr
deriving DecidableEq, Repr

/-- The handshake response used by the later steps. -/
structure IngestResp where
  handshakeId : String
  uploadUrl : String
deriving DecidableEq, Repr

/-- Environment of one Process run: the hash outcome, the handshake outcome
(none is a transport or non-2xx failure), and whether the PUT and the
success-confirm each succeed. -/
structure ProcEnv where
  hash : HashOutcome
  ingest : Option IngestResp
  uploadOk : Bool
  confirmOk : Bool
deriving DecidableEq, Repr

/-- A remote call issued by Process, in order. -/
inductive RemoteCall where
  | ingestReq
  | putUpload
  | confirmFailed
  | confirmSuccess
deriving DecidableEq, Repr

/-- A store mutation committed by Process, in order. -/
inductive StoreMut where
  | removeRec (p : String)
  | markUp (p : String)
deriving DecidableEq, Repr

/-- The sidecar short-circuit test at the top of Process: a .json record
whose partner_path is set and non-empty is skipped. -/
def sidecarSkip (f : FileRecord) : Bool :=
  filepathExt f.path == (".json") &&
    (match f.partnerPath with
     | some q => q != ""
     | none => false)

/-- The step-7 commit list: MarkUploaded on the path, then on the partner
when partner_path is set and non-empty. -/
def commitMuts (f : FileRecord) : List StoreMut :=
  StoreMut.markUp f.path ::
    (match f.partnerPath with
     | some q => if q ≠ "" then [StoreMut.markUp q] else []
     | none => [])

/-- Uploader.Process: sidecar short-circuit, checksum (a vanished file
removes the record), handshake, upload (a failed PUT sends a best-effort
FAILED confirm), success confirm, then the commit. -/
def process (f : FileRecord) (env : ProcEnv) : List RemoteCall × List StoreMut :=
  if sidecarSkip f then ([], [])
  else
    match env.hash with
    | HashOutcome.notExist => ([], [StoreMut.removeRec f.path])
    | HashOutcome.readErr => ([], [])
    | HashOutcome.ok _ =>
      match env.ingest with
      | none => ([RemoteCall.ingestReq], [])
      | some _ =>
        if env.uploadOk then
          if env.confirmOk then
            ([RemoteCall.ingestReq, RemoteCall.putUpload, RemoteCall.confirmSuccess],
              commitMuts f)
          else
            ([RemoteCall.ingestReq, RemoteCall.putUpload, RemoteCall.confirmSuccess], [])
        else
          ([RemoteCall.ingestReq, RemoteCall.putUpload, RemoteCall.confirmFailed], [])

/-- Apply the committed store mutations. -/
def applyMuts (db : DB) (now : Int) : List StoreMut → DB
  | [] => db
  | StoreMut.removeRec p :: rest => applyMuts (removeFile db p) now rest
  | StoreMut.markUp p :: rest => applyMuts (markUploaded db p now) now rest

/-! ### Orphan checker (daemon.go orphanChecker) -/

/-- One minute in nanoseconds (time.Duration units). -/
def oneMinuteNs : Int := 60000000000

/-- The timeout passed to MarkOrphans by orphanChecker: the check interval
minus one minute, floored at one minute. -/
def orphanTimeout (intervalNs : Int) : Int :=
  let t := intervalNs - oneMinuteNs
  if t < oneMinuteNs then oneMinuteNs else t

/-- One tick of orphanChecker: MarkOrphans with the derived timeout. -/
def orphanCheckerTick (db : DB) (now intervalNs : Int) : DB :=
  markOrphans db now (orphanTimeout intervalNs)

/-- Modelled from the spec: the section 4.5 timeout, interval minus a slack
of at least one minute or one fifth of the interval (whichever is larger),
with a floor of one minute.  Stated only to compare against the code. -/
def specOrphanTimeout (intervalNs : Int) : Int :=
  max (intervalNs - max oneMinuteNs (intervalNs / 5)) oneMinuteNs

/-! ### Path metadata (internal/util/metadata.go and Go path/filepath, Unix)

Go strings are modelled as character lists here, so that the split, clean,
join, dir and rel algorithms can be reasoned about structurally. -/

/-- A Go string, as its character sequence. -/
abbrev GoStr := List Char

/-- strings.Split on the path separator. -/
def splitSep : GoStr → List GoStr
  | [] => [[]]
  | c :: rest =>
    if c = '/' then [] :: splitSep rest
    else
      match splitSep rest with
      | [] => [[c]]
      | h :: t => (c :: h) :: t

/-- strings.Join with the path separator. -/
def interSep : List GoStr → GoStr
  | [] => []
  | [s] => s
  | s :: rest => s ++ '/' :: interSep rest

/-- Whether a path is rooted, plus its raw separator-split parts. -/
def parsePath (s : GoStr) : Bool × List GoStr :=
  (s.head? == some '/', splitSep s)

/-- One step of the Clean element stack (kept reversed): empty and dot parts
vanish, dotdot pops a normal part (at the root it vanishes, at the head of a
relative path it is kept), any other part is pushed. -/
def cleanPush (isAbs : Bool) (st : List GoStr) (c : GoStr) : List GoStr :=
  if c = [] ∨ c = ['.'] then st
  else if c = ['.', '.'] then
    match st with
    | [] => if isAbs then [] else [c]
    | t :: ts => if t = ['.', '.'] then c :: t :: ts else ts
  else c :: st

/-- path Clean on separator-split parts. -/
def cleanParts (isAbs : Bool) (cs : List GoStr) : List GoStr :=
  (cs.foldl (cleanPush isAbs) []).reverse

/-- Render a rooted flag and cleaned parts back to a string, in the form
Clean produces: a leading separator when rooted, a lone dot for an empty
relative path. -/
def renderPath (isAbs : Bool) (cs : List GoStr) : GoStr :=
  if isAbs then '/' :: interSep cs
  else if cs = [] then ['.'] else interSep cs

/-- filepath.Clean. -/
def goClean (s : GoStr) : GoStr :=
  renderPath (parsePath s).1 (cleanParts (parsePath s).1 (parsePath s).2)

/-- filepath.Join: skip leading empty elements, join the rest with the
separator and clean; all elements empty gives the empty string. -/
def goJoin (elems : List GoStr) : GoStr :=
  match elems.dropWhile (fun e => e == ([] : GoStr)) with
  | [] => []
  | es => goClean (interSep es)

/-- filepath.Dir: everything before the final separator, cleaned. -/
def goDir (s : GoStr) : GoStr :=
  renderPath (parsePath s).1 (cleanParts (parsePath s).1 (parsePath s).2.dropLast)

/-- Length of the longest common prefix of two part lists. -/
def cplParts : List GoStr → List GoStr → Nat
  | a :: as, b :: bs => if a = b then cplParts as bs + 1 else 0
  | _, _ => 0

/-- filepath.Rel on Unix: clean both paths; equal paths give dot; a rooted
and a relative path cannot be related; otherwise drop the common prefix and
climb with one dotdot per remaining base part, a remaining leading dotdot in
the base being an error. -/
def goRel (base targ : GoStr) : Option GoStr :=
  let pb := parsePath base
  let pt := parsePath targ
  let bcs := cleanParts pb.1 pb.2
  let tcs := cleanParts pt.1 pt.2
  if pb.1 = pt.1 ∧ bcs = tcs then some ['.']
  else if pb.1 ≠ pt.1 then none
  else
    let k := cplParts bcs tcs
    if (bcs.drop k).head? = some ['.', '.'] then none
    else some (renderPath false (List.replicate (bcs.drop k).length ['.', '.'] ++ tcs.drop k))

/-- The dir_i metadata keys built with fmt.Sprintf. -/
def dirKey (i : Nat) : GoStr := ("dir_").data ++ (Nat.repr i).data

/-- The part loop of ExtractMetadata: parts that are empty or a lone dot are
skipped; every kept part is appended to the context and mapped under its
index among all parts. -/
def metaLoop : Nat → List GoStr → List GoStr × List (GoStr × GoStr)
  | _, [] => ([], [])
  | i, p :: rest =>
    let out := metaLoop (i + 1) rest
    if p = [] ∨ p = ['.'] then out
    else (p :: out.1, (dirKey i, p) :: out.2)

/-- util.ExtractMetadata: a Rel error or a dot directory gives empty results,
otherwise the directory part of the relative path is split and looped over. -/
def extractMetadata (root path : GoStr) : List GoStr × List (GoStr × GoStr) :=
  match goRel root path with
  | none => ([], [])
  | some rel =>
    let dir := goDir rel
    if dir = ['.'] then ([], [])
    else metaLoop 0 (splitSep dir)

/-- A well-formed path component for the metadata round trip: non-empty, not
dot, not dotdot, and free of the separator. -/
def goodComp (c : GoStr) : Prop :=
  c ≠ [] ∧ c ≠ ['.'] ∧ c ≠ ['.', '.'] ∧ '/' ∉ c

instance (c : GoStr) : Decidable (goodComp c) := by
  unfold goodComp; infer_instance

/-- A part the Clean stack simply pushes: non-empty, not dot, not dotdot. -/
def pushComp (c : GoStr) : Prop :=
  c ≠ [] ∧ c ≠ ['.'] ∧ c ≠ ['.', '.']

instance (c : GoStr) : Decidable (pushComp c) := by
  unfold pushComp; infer_instance

/-! ### Concrete scenarios used below -/

/-- A registered pair: the image first, then its sidecar. -/
def pairDB : DB :=
  runOps [StoreOp.register ("/d/img.png") 4 10 false true,
          StoreOp.register ("/d/img.png.json") 1 11 true true]

/-- The sidecar record of pairDB after the pairing transaction. -/
def pairJsonRec : FileRecord :=
  { id := 2, path := "/d/img.png.json", size := 1, modTime := 11,
    status := FileStatus.pending, uploadedAt := none,
    partnerPath := some "/d/img.png" }

/-- A file registered without sidecar expectation and then uploaded. -/
def c3dbA : DB :=
  runOps [StoreOp.register ("/d/a.png") 1 10 false false,
          StoreOp.upload ("/d/a.png") 20]

/-- The same store after the file is registered again (re-ingest). -/
def c3dbB : DB := applyOp c3dbA (StoreOp.register ("/d/a.png") 1 30 false false)

/-- The uploaded record of c3dbA. -/
def c3Rec : FileRecord :=
  { id := 1, path := "/d/a.png", size := 1, modTime := 10,
    status := FileStatus.uploaded, uploadedAt := some 20,
    partnerPath := some "/d/a.png.json" }

/-- Operations leading to c3dbB, in one list. -/
def c4ops : List StoreOp :=
  [StoreOp.register ("/d/a.png") 1 10 false false,
   StoreOp.upload ("/d/a.png") 20,
   StoreOp.register ("/d/a.png") 1 30 false false]

/-- Operations leading to c3dbA, in one list. -/
def c4opsGood : List StoreOp :=
  [StoreOp.register ("/d/a.png") 1 10 false false,
   StoreOp.upload ("/d/a.png") 20]

/-- A lone image whose sidecar never arrived, after the orphan sweep. -/
def orphanDB : DB :=
  runOps [StoreOp.register ("/d/img.png") 4 10 false true,
          StoreOp.orphans 10000000000000 1]

/-- The orphaned image record of orphanDB. -/
def orphanRec : FileRecord :=
  { id := 1, path := "/d/img.png", size := 4, modTime := 10,
    status := FileStatus.orphan, uploadedAt := none,
    partnerPath := some "/d/img.png.json" }

/-- The record and environment of the C5 witness: a datum with a paired
sidecar and a fully successful remote run. -/
def c5rec : FileRecord :=
  { id := 1, path := "/d/img.png", size := 4, modTime := 10,
    status := FileStatus.pending, uploadedAt := none,
    partnerPath := some "/d/img.png.json" }

/-- The fully successful environment of the C5 witness. -/
def c5env : ProcEnv :=
  { hash := HashOutcome.ok ("abc"), ingest := some { handshakeId := "h1", uploadUrl := "/u/1" },
    uploadOk := true, confirmOk := true }

/-- The six uploaded twenty-byte files of scenario E4. -/
def e4db : DB :=
  { nextId := 7,
    recs := [⟨1, "/w/f1", 20, 1, FileStatus.uploaded, some 101, none⟩,
             ⟨2, "/w/f2", 20, 2, FileStatus.uploaded, some 102, none⟩,
             ⟨3, "/w/f3", 20, 3, FileStatus.uploaded, some 103, none⟩,
             ⟨4, "/w/f4", 20, 4, FileStatus.uploaded, some 104, none⟩,
             ⟨5, "/w/f5", 20, 5, FileStatus.uploaded, some 105, none⟩,
             ⟨6, "/w/f6", 20, 6, FileStatus.uploaded, some 106, none⟩] }

/-- The on-disk files of scenario E4, none failing. -/
def e4fs : FS :=
  { files := ["/w/f1", "/w/f2", "/w/f3", "/w/f4", "/w/f5", "/w/f6"], failing := [] }

/-- The first eviction event of the E4 prune cycle. -/
def e4evt : DelEvent :=
  { record := ⟨1, "/w/f1", 20, 1, FileStatus.uploaded, some 101, none⟩,
    totalBefore := 120 }

/-! ### Basic facts about the store operations -/

/-- Invariant 2 of the spec, first half: an UPLOADED record carries an
uploaded_at instant. -/
def uploadedAtInv (db : DB) : Prop :=
  ∀ r ∈ db.recs, r.status = FileStatus.uploaded → r.uploadedAt ≠ none

lemma mem_upsert_status {db : DB} {p : String} {s m : Int} {st : FileStatus}
    {pp : Option String} {r : FileRecord} (hr : r ∈ (upsert db p s m st pp).recs) :
    r.status = st ∨ r ∈ db.recs := by
  unfold upsert at hr
  split at hr
  · simp only [List.mem_map] at hr
    obtain ⟨r0, hr0, hrr⟩ := hr
    by_cases hp : r0.path = p
    · left; simp [hp] at hrr; simp [← hrr]
    · right; simp [hp] at hrr; simpa [← hrr]
  · simp only [List.mem_append, List.mem_singleton] at hr
    rcases hr with h | h
    · right; exact h
    · left; simp [h]

lemma mem_registerFile_status {db : DB} {p : String} {s m : Int}
    {isMeta expectSidecar : Bool} {r : FileRecord}
    (hr : r ∈ (registerFile db p s m isMeta expectSidecar).recs) :
    r.status = FileStatus.pending ∨ r.status = FileStatus.awaitingPartner ∨ r ∈ db.recs := by
  unfold registerFile at hr
  rcases hfind : db.recs.find? (fun r => r.path == partnerPathOf p isMeta) with _ | partner
  · simp only [hfind] at hr
    rcases mem_upsert_status hr with h | h
    · by_cases hcase : (!isMeta && !expectSidecar) = true
      · simp [hcase] at h; simp [h]
      · simp [hcase] at h; simp [h]
    · right; right; exact h
  · simp only [hfind, List.mem_map] at hr
    obtain ⟨r1, hr1, hrr⟩ := hr
    by_cases hid : r1.id = partner.id
    · left; simp [hid] at hrr; simp [← hrr]
    · simp [hid] at hrr
      subst hrr
      rcases mem_upsert_status hr1 with h | h
      · left; exact h
      · right; right; exact h

lemma mem_markOrphans {db : DB} {now timeout : Int} {r : FileRecord}
    (hr : r ∈ (markOrphans db now timeout).recs) :
    r.status = FileStatus.orphan ∨ r ∈ db.recs := by
  unfold markOrphans at hr
  simp only [List.mem_map] at hr
  obtain ⟨r0, hr0, hrr⟩ := hr
  by_cases hc : r0.status = FileStatus.awaitingPartner ∧ r0.modTime < now - timeout
  · left; simp [hc] at hrr; simp [← hrr]
  · right; simp [hc] at hrr; simpa [← hrr]

lemma mem_markUploaded {db : DB} {p : String} {now : Int} {r : FileRecord}
    (hr : r ∈ (markUploaded db p now).recs) :
    (r.status = FileStatus.uploaded ∧ r.uploadedAt = some now) ∨ r ∈ db.recs := by
  unfold markUploaded at hr
  simp only [List.mem_map] at hr
  obtain ⟨r0, hr0, hrr⟩ := hr
  by_cases hp : r0.path = p
  · left; simp [hp] at hrr; simp [← hrr]
  · right; simp [hp] at hrr; simpa [← hrr]

lemma mem_removeFile {db : DB} {p : String} {r : FileRecord}
    (hr : r ∈ (removeFile db p).recs) : r ∈ db.recs := by
  unfold removeFile at hr
  exact List.mem_of_mem_filter hr

lemma upsert_preserves_id {db : DB} {p : String} {s m : Int} {st : FileStatus}
    {pp : Option String} {r0 : FileRecord} (h : r0 ∈ db.recs) :
    ∃ r1 ∈ (upsert db p s m st pp).recs, r1.id = r0.id := by
  unfold upsert
  split
  · refine ⟨if r0.path = p then
        { r0 with size := s, modTime := m, status := st, partnerPath := pp }
      else r0, List.mem_map_of_mem _ h, ?_⟩
    by_cases hp : r0.path = p <;> simp [hp]
  · exact ⟨r0, by simp [h], rfl⟩

lemma uploadedAtInv_applyOp {db : DB} (h : uploadedAtInv db) (op : StoreOp) :
    uploadedAtInv (applyOp db op) := by
  intro r hr hst
  cases op with
  | register p s m im es =>
    rcases mem_registerFile_status hr with h1 | h1 | h1
    · rw [h1] at hst; cases hst
    · rw [h1] at hst; cases hst
    · exact h r h1 hst
  | orphans now timeout =>
    rcases mem_markOrphans hr with h1 | h1
    · rw [h1] at hst; cases hst
    · exact h r h1 hst
  | upload p now =>
    rcases mem_markUploaded hr with h1 | h1
    · rw [h1.2]; simp
    · exact h r h1 hst
  | remove p =>
    exact h r (mem_removeFile hr) hst

lemma mem_upsert_self (db : DB) (p : String) (s m : Int) (st : FileStatus)
    (pp : Option String) :
    ∃ r ∈ (upsert db p s m st pp).recs,
      r.path = p ∧ r.status = st ∧ r.partnerPath = pp := by
  unfold upsert
  split
  · rename_i hany
    simp only [List.any_eq_true, beq_iff_eq] at hany
    obtain ⟨r0, hr0, hr0p⟩ := hany
    exact ⟨_, List.mem_map_of_mem _ hr0, by simp [hr0p]⟩
  · refine ⟨⟨db.nextId, p, s, m, st, none, pp⟩, ?_, by simp⟩
    simp

lemma uploadedAtInv_runOps (ops : List StoreOp) : uploadedAtInv (runOps ops) := by
  have main : ∀ (l : List StoreOp) (db : DB),
      uploadedAtInv db → uploadedAtInv (l.foldl applyOp db) := by
    intro l
    induction l with
    | nil => intro db h; exact h
    | cons op rest ih => intro db h; exact ih (applyOp db op) (uploadedAtInv_applyOp h op)
  refine main ops emptyDB ?_
  intro r hr
  simp [emptyDB] at hr

/-! ### Claim C2 -/

/-- C2 counterexample: RemoveFile does not NULL the surviving partner's
partner_path.  After removing the image of a registered pair, the sidecar
still carries partner_path = the image path (and its status is unchanged),
contradicting the claimed NULLing step. -/
theorem removeFile_partner_not_nulled :
    partnerOf (removeFile pairDB ("/d/img.png")) ("/d/img.png.json")
        = some (some ("/d/img.png")) ∧
    partnerOf (removeFile pairDB ("/d/img.png")) ("/d/img.png.json") ≠ some none ∧
    statusOf (removeFile pairDB ("/d/img.png")) ("/d/img.png.json")
        = some FileStatus.pending := by
  decide

/-- C2 amended: RemoveFile(p) deletes exactly the record with path p and
leaves every other record untouched, so a surviving partner keeps its
status and its (now dangling) partner_path. -/
theorem removeFile_only_deletes_target (db : DB) (p : String) (r : FileRecord) :
    (r ∈ db.recs → r.path ≠ p → r ∈ (removeFile db p).recs) ∧
    (r ∈ (removeFile db p).recs → r.path ≠ p ∧ r ∈ db.recs) := by
  unfold removeFile
  constructor
  · intro h hne
    simp [List.mem_filter, h, hne]
  · intro h
    simp only [List.mem_filter, decide_eq_true_eq] at h
    exact ⟨h.2, h.1⟩

/-- Witness for the C2 amended theorem at the registered pair. -/
theorem removeFile_only_deletes_target_witness :
    pairJsonRec ∈ pairDB.recs ∧ pairJsonRec.path ≠ ("/d/img.png") ∧
    pairJsonRec ∈ (removeFile pairDB ("/d/img.png")).recs :=
  ⟨by decide, by decide,
    (removeFile_only_deletes_target pairDB ("/d/img.png") pairJsonRec).1
      (by decide) (by decide)⟩

/-! ### Claim C3 -/

/-- C3 counterexample: a RegisterFile call moves an UPLOADED record back to
PENDING (the ON CONFLICT clause resets status on re-ingest), so UPLOADED is
not terminal under sequences that include RegisterFile. -/
theorem register_regresses_uploaded :
    statusOf c3dbA ("/d/a.png") = some FileStatus.uploaded ∧
    statusOf c3dbB ("/d/a.png") = some FileStatus.pending := by
  decide

/-- C3 amended: UPLOADED is preserved by MarkOrphans and MarkUploaded (and
left only by removal), but RegisterFile can regress it. -/
theorem uploaded_terminal_without_register (db : DB) (now timeout : Int)
    (p2 : String) (n2 : Int) (r : FileRecord)
    (h1 : r ∈ db.recs) (h2 : r.status = FileStatus.uploaded) :
    (∃ r1 ∈ (markOrphans db now timeout).recs,
        r1.path = r.path ∧ r1.status = FileStatus.uploaded) ∧
    (∃ r2 ∈ (markUploaded db p2 n2).recs,
        r2.path = r.path ∧ r2.status = FileStatus.uploaded) := by
  constructor
  · refine ⟨r, ?_, rfl, h2⟩
    unfold markOrphans
    simp only [List.mem_map]
    exact ⟨r, h1, by simp [h2]⟩
  · by_cases hp : r.path = p2
    · refine ⟨{ r with status := FileStatus.uploaded, uploadedAt := some n2 }, ?_, rfl, rfl⟩
      unfold markUploaded
      simp only [List.mem_map]
      exact ⟨r, h1, by simp [hp]⟩
    · refine ⟨r, ?_, rfl, h2⟩
      unfold markUploaded
      simp only [List.mem_map]
      exact ⟨r, h1, by simp [hp]⟩

/-- Witness for the C3 amended theorem at the uploaded record of c3dbA. -/
theorem uploaded_terminal_without_register_witness :
    c3Rec ∈ c3dbA.recs ∧
    (∃ r1 ∈ (markOrphans c3dbA 100 1).recs,
        r1.path = c3Rec.path ∧ r1.status = FileStatus.uploaded) ∧
    (∃ r2 ∈ (markUploaded c3dbA ("/d/b.png") 50).recs,
        r2.path = c3Rec.path ∧ r2.status = FileStatus.uploaded) := by
  have h := uploaded_terminal_without_register c3dbA 100 1 ("/d/b.png") 50 c3Rec
    (by decide) (by decide)
  exact ⟨by decide, h.1, h.2⟩

/-! ### Claim C4 -/

/-- C4 counterexample: after upload and re-registration the record is
PENDING yet still carries uploaded_at = 20, because the ON CONFLICT clause
overwrites only size, mod_time, status and partner_path.  This refutes the
claimed direction that a non-UPLOADED status implies uploaded_at NULL. -/
theorem stale_uploadedAt_after_reregister :
    statusOf (runOps c4ops) ("/d/a.png") = some FileStatus.pending ∧
    uploadedAtOf (runOps c4ops) ("/d/a.png") = some (some 20) := by
  decide

/-- C4 amended: only the forward direction of invariant 2 holds after any
sequence of committed store operations: a record with status UPLOADED always
carries a non-NULL uploaded_at. -/
theorem uploaded_implies_uploadedAt_set (ops : List StoreOp) (r : FileRecord)
    (h1 : r ∈ (runOps ops).recs) (h2 : r.status = FileStatus.uploaded) :
    r.uploadedAt ≠ none :=
  uploadedAtInv_runOps ops r h1 h2

/-- Witness for the C4 amended theorem at the uploaded record of c4opsGood. -/
theorem uploaded_implies_uploadedAt_set_witness :
    c3Rec ∈ (runOps c4opsGood).recs ∧ c3Rec.status = FileStatus.uploaded ∧
    c3Rec.uploadedAt ≠ none :=
  ⟨by decide, by decide,
    uploaded_implies_uploadedAt_set c4opsGood c3Rec (by decide) (by decide)⟩

/-! ### Claim C7 -/

/-- C7 counterexample: registering a sidecar with no partner in the store
leaves partner_path = the datum path obtained by stripping .json, not NULL
as claimed (the double-extension rule makes the datum path known). -/
theorem meta_register_partner_not_null :
    partnerOf (registerFile emptyDB ("/d/img.png.json") 5 10 true true)
        ("/d/img.png.json") = some (some ("/d/img.png")) ∧
    partnerOf (registerFile emptyDB ("/d/img.png.json") 5 10 true true)
        ("/d/img.png.json") ≠ some none ∧
    statusOf (registerFile emptyDB ("/d/img.png.json") 5 10 true true)
        ("/d/img.png.json") = some FileStatus.awaitingPartner := by
  decide

/-- C7 amended: when RegisterFile runs with isMeta = true and no record for
the stripped datum path exists, the sidecar is stored with status
AWAITING_PARTNER and partner_path = the stripped datum path (non-NULL
whenever stripping leaves a non-empty path). -/
theorem meta_register_sets_partner_and_awaiting (db : DB) (path : String)
    (size modTime : Int) (expectSidecar : Bool)
    (h1 : trimSuffix path (".json") ≠ "")
    (h2 : db.recs.find? (fun r => r.path == trimSuffix path (".json")) = none) :
    ∃ r ∈ (registerFile db path size modTime true expectSidecar).recs,
      r.path = path ∧ r.partnerPath = some (trimSuffix path (".json")) ∧
      r.status = FileStatus.awaitingPartner := by
  have heq : registerFile db path size modTime true expectSidecar
      = upsert db path size modTime FileStatus.awaitingPartner
          (some (trimSuffix path (".json"))) := by
    unfold registerFile
    simp [partnerPathOf, h1, h2]
  rw [heq]
  obtain ⟨r, hr, hrp, hrs, hrpp⟩ := mem_upsert_self db path size modTime
    FileStatus.awaitingPartner (some (trimSuffix path (".json")))
  exact ⟨r, hr, hrp, hrpp, hrs⟩

/-- Witness for the C7 amended theorem at a fresh store. -/
theorem meta_register_sets_partner_and_awaiting_witness :
    trimSuffix ("/d/img.png.json") (".json") ≠ "" ∧
    (∃ r ∈ (registerFile emptyDB ("/d/img.png.json") 5 10 true true).recs,
      r.path = ("/d/img.png.json") ∧
      r.partnerPath = some (trimSuffix ("/d/img.png.json") (".json")) ∧
      r.status = FileStatus.awaitingPartner) :=
  ⟨by decide,
    meta_register_sets_partner_and_awaiting emptyDB ("/d/img.png.json") 5 10 true
      (by decide) (by decide)⟩

/-! ### Claim C10 -/

/-- C10: when RegisterFile finds a record at the computed partner path, it
forces that record to PENDING and points its partner_path at the new file,
whatever status the partner held before (in particular ORPHAN). -/
theorem register_forces_partner_pending (db : DB) (p : String) (size modTime : Int)
    (isMeta expectSidecar : Bool) (partner : FileRecord)
    (h : db.recs.find? (fun r => r.path == partnerPathOf p isMeta) = some partner) :
    ∃ r ∈ (registerFile db p size modTime isMeta expectSidecar).recs,
      r.id = partner.id ∧ r.status = FileStatus.pending ∧ r.partnerPath = some p := by
  unfold registerFile
  simp only [h]
  have hp : partner ∈ db.recs := List.mem_of_find?_eq_some h
  obtain ⟨r1, hr1, hid⟩ :=
    @upsert_preserves_id db p size modTime FileStatus.pending
      (some (partnerPathOf p isMeta)) partner hp
  refine ⟨_, List.mem_map_of_mem _ hr1, ?_⟩
  simp [hid]

/-- Witness for C10: a late sidecar moves its ORPHAN image partner back to
PENDING. -/
theorem register_forces_partner_pending_witness :
    orphanRec ∈ orphanDB.recs ∧ orphanRec.status = FileStatus.orphan ∧
    (∃ r ∈ (registerFile orphanDB ("/d/img.png.json") 1 50 true true).recs,
      r.id = orphanRec.id ∧ r.status = FileStatus.pending ∧
      r.partnerPath = some ("/d/img.png.json")) :=
  ⟨by decide, by decide,
    register_forces_partner_pending orphanDB ("/d/img.png.json") 1 50 true true
      orphanRec (by decide)⟩

/-! ### Claim C8 -/

/-- C8 counterexample: at a ten-minute interval the code passes MarkOrphans a
timeout of nine minutes (fixed one-minute slack), while the claimed rule
slack = max(one minute, interval/5) yields eight minutes. -/
theorem orphan_timeout_not_spec_slack :
    orphanTimeout (10 * oneMinuteNs) = 9 * oneMinuteNs ∧
    specOrphanTimeout (10 * oneMinuteNs) = 8 * oneMinuteNs ∧
    orphanTimeout (10 * oneMinuteNs) ≠ specOrphanTimeout (10 * oneMinuteNs) := by
  refine ⟨?_, ?_, ?_⟩ <;> simp [orphanTimeout, specOrphanTimeout, oneMinuteNs]

/-- C8 amended: each orphanChecker tick calls MarkOrphans with timeout =
orphan_check_interval minus a fixed one-minute slack, floored at one
minute. -/
theorem orphan_tick_timeout (db : DB) (now intervalNs : Int) :
    orphanCheckerTick db now intervalNs
      = markOrphans db now (max (intervalNs - oneMinuteNs) oneMinuteNs) := by
  unfold orphanCheckerTick orphanTimeout
  congr 1
  simp only [Int.max_def]
  split <;> split <;> omega

/-! ### Claim C5 -/

lemma markUploaded_self (db : DB) (p : String) (now : Int) :
    ∀ r ∈ (markUploaded db p now).recs, r.path = p → r.status = FileStatus.uploaded := by
  intro r hr hp
  unfold markUploaded at hr
  simp only [List.mem_map] at hr
  obtain ⟨r0, _, hrr⟩ := hr
  by_cases h0 : r0.path = p
  · simp [h0] at hrr; simp [← hrr]
  · simp [h0] at hrr
    subst hrr
    exact absurd hp h0

lemma markUploaded_pathProp (db : DB) (p : String) (now : Int) (x : String)
    (h : ∀ r0 ∈ db.recs, r0.path = x → r0.status = FileStatus.uploaded) :
    ∀ r ∈ (markUploaded db p now).recs, r.path = x → r.status = FileStatus.uploaded := by
  intro r hr hx
  unfold markUploaded at hr
  simp only [List.mem_map] at hr
  obtain ⟨r0, hr0, hrr⟩ := hr
  by_cases h0 : r0.path = p
  · simp [h0] at hrr; simp [← hrr]
  · simp [h0] at hrr
    subst hrr
    exact h r0 hr0 hx

/-- C5: the sidecar short-circuit skips without any call or mutation; a fully
successful run commits MarkUploaded on the path and then on the non-empty
partner, leaving both records UPLOADED; and MarkUploaded is committed only
when the checksum, handshake, upload and confirm all succeeded, so a failed
run marks nothing. -/
theorem uploader_pipeline_commit (f : FileRecord) (env : ProcEnv) :
    (sidecarSkip f = true → process f env = ([], [])) ∧
    (sidecarSkip f = false → ∀ sum resp, env.hash = HashOutcome.ok sum →
      env.ingest = some resp → env.uploadOk = true → env.confirmOk = true →
      (process f env).2 = commitMuts f ∧
      ∀ (db : DB) (now : Int) (r : FileRecord),
        r ∈ (applyMuts db now (process f env).2).recs →
        (r.path = f.path ∨ ∃ q, f.partnerPath = some q ∧ q ≠ "" ∧ r.path = q) →
        r.status = FileStatus.uploaded) ∧
    (∀ p, StoreMut.markUp p ∈ (process f env).2 →
      env.uploadOk = true ∧ env.confirmOk = true ∧
      (∃ s, env.hash = HashOutcome.ok s) ∧ (∃ resp, env.ingest = some resp)) := by
  refine ⟨?_, ?_, ?_⟩
  · intro hskip
    simp [process, hskip]
  · intro hskip sum resp hh hi hup hcf
    have hmuts : (process f env).2 = commitMuts f := by
      simp [process, hskip, hh, hi, hup, hcf]
    refine ⟨hmuts, ?_⟩
    intro db now r hr hor
    rw [hmuts] at hr
    rcases hq : f.partnerPath with _ | q
    · unfold commitMuts at hr
      rw [hq] at hr
      simp only [applyMuts] at hr
      rcases hor with hor | ⟨q, hq2, _, _⟩
      · exact markUploaded_self db f.path now r hr hor
      · rw [hq] at hq2; cases hq2
    · by_cases hqe : q ≠ ""
      · unfold commitMuts at hr
        rw [hq] at hr
        simp only [hqe, if_true, ne_eq, not_false_eq_true, applyMuts] at hr
        rcases hor with hor | ⟨q2, hq2, _, hq4⟩
        · refine markUploaded_pathProp _ q now f.path ?_ r hr hor
          exact markUploaded_self db f.path now
        · rw [hq] at hq2
          obtain rfl : q = q2 := by injection hq2
          exact markUploaded_self _ q now r hr hq4
      · simp only [ne_eq, not_not] at hqe
        unfold commitMuts at hr
        rw [hq, hqe] at hr
        simp only [ne_eq, not_true_eq_false, if_false, applyMuts] at hr
        rcases hor with hor | ⟨q2, hq2, hq3, _⟩
        · exact markUploaded_self db f.path now r hr hor
        · rw [hq] at hq2
          obtain rfl : q = q2 := by injection hq2
          rw [hqe] at hq3
          exact absurd rfl hq3
  · intro p hp
    by_cases hskip : sidecarSkip f = true
    · simp [process, hskip] at hp
    · simp only [Bool.not_eq_true] at hskip
      rcases hh : env.hash with sum | _ | _
      · rcases hi : env.ingest with _ | resp
        · simp [process, hskip, hh, hi] at hp
        · by_cases hup : env.uploadOk = true
          · by_cases hcf : env.confirmOk = true
            · exact ⟨hup, hcf, ⟨sum, rfl⟩, ⟨resp, rfl⟩⟩
            · simp only [Bool.not_eq_true] at hcf
              simp [process, hskip, hh, hi, hup, hcf] at hp
          · simp only [Bool.not_eq_true] at hup
            simp [process, hskip, hh, hi, hup] at hp
      · simp [process, hskip, hh] at hp
      · simp [process, hskip, hh] at hp

/-- Witness for C5 at a paired datum with a successful run. -/
theorem uploader_pipeline_commit_witness :
    sidecarSkip c5rec = false ∧
    (process c5rec c5env).2 = commitMuts c5rec ∧
    commitMuts c5rec
      = [StoreMut.markUp ("/d/img.png"), StoreMut.markUp ("/d/img.png.json")] := by
  have h := (uploader_pipeline_commit c5rec c5env).2.1 (by decide)
    ("abc") { handshakeId := "h1", uploadUrl := "/u/1" } rfl rfl rfl rfl
  exact ⟨by decide, h.1, by decide⟩

/-! ### Pruner lemmas -/

lemma mem_removeFile_ne {db : DB} {p : String} {r : FileRecord}
    (hr : r ∈ (removeFile db p).recs) : r.path ≠ p := by
  unfold removeFile at hr
  simp only [List.mem_filter, decide_eq_true_eq] at hr
  exact hr.2

lemma osRemove_failing (fs : FS) (p : String) :
    ((osRemove fs p).2).failing = fs.failing := by
  unfold osRemove
  split
  · rfl
  · split <;> rfl

lemma osRemove_not_failed {fs : FS} {p : String}
    (h : ¬(osRemove fs p).1 = UnlinkResult.failed) : p ∉ fs.failing := by
  intro hp
  unfold osRemove at h
  rw [if_pos hp] at h
  exact h rfl

lemma osRemove_failed_mem {fs : FS} {p : String}
    (h : (osRemove fs p).1 = UnlinkResult.failed) : p ∈ fs.failing := by
  by_contra hp
  unfold osRemove at h
  rw [if_neg hp] at h
  split at h <;> cases h

lemma processBatch_failing (low : Int) (cands : List FileRecord) :
    ∀ (db : DB) (fs : FS) (size : Int),
      ((processBatch low db fs size cands).fs).failing = fs.failing := by
  induction cands with
  | nil => intro db fs size; rfl
  | cons f rest ih =>
    intro db fs size
    simp only [processBatch]
    split
    · simp only []
      rw [ih, osRemove_failing]
    · split
      · exact osRemove_failing fs f.path
      · simp only []
        rw [ih, osRemove_failing]

lemma processBatch_db_sub (low : Int) (cands : List FileRecord) :
    ∀ (db : DB) (fs : FS) (size : Int) (r : FileRecord),
      r ∈ (processBatch low db fs size cands).db.recs → r ∈ db.recs := by
  induction cands with
  | nil => intro db fs size r h; exact h
  | cons f rest ih =>
    intro db fs size r h
    simp only [processBatch] at h
    split at h
    · exact ih db _ size r h
    · split at h
      · exact mem_removeFile h
      · exact mem_removeFile (ih _ _ _ r h)

lemma processBatch_unlinked (low : Int) (cands : List FileRecord) :
    ∀ (db : DB) (fs : FS) (size : Int) (p : String),
      p ∈ (processBatch low db fs size cands).unlinked → ∃ f ∈ cands, f.path = p := by
  induction cands with
  | nil => intro db fs size p h; cases h
  | cons f rest ih =>
    intro db fs size p h
    simp only [processBatch] at h
    split at h
    · rcases List.mem_cons.mp h with h1 | h1
      · exact ⟨f, List.mem_cons_self f rest, h1.symm⟩
      · obtain ⟨g, hg, hgp⟩ := ih db _ size p h1
        exact ⟨g, List.mem_cons_of_mem f hg, hgp⟩
    · split at h
      · rcases List.mem_singleton.mp h with h1
        exact ⟨f, List.mem_cons_self f rest, h1.symm⟩
      · rcases List.mem_cons.mp h with h1 | h1
        · exact ⟨f, List.mem_cons_self f rest, h1.symm⟩
        · obtain ⟨g, hg, hgp⟩ := ih _ _ _ p h1
          exact ⟨g, List.mem_cons_of_mem f hg, hgp⟩

lemma processBatch_deleted (low : Int) (cands : List FileRecord) :
    ∀ (db : DB) (fs : FS) (size : Int), low < size →
      ∀ e ∈ (processBatch low db fs size cands).deleted,
        e.record ∈ cands ∧ e.record.path ∉ fs.failing ∧ low < e.totalBefore := by
  induction cands with
  | nil => intro db fs size _ e h; cases h
  | cons f rest ih =>
    intro db fs size hsize e h
    simp only [processBatch] at h
    split at h
    · obtain ⟨h1, h2, h3⟩ := ih db _ size hsize e h
      rw [osRemove_failing] at h2
      exact ⟨List.mem_cons_of_mem f h1, h2, h3⟩
    · rename_i hnf
      split at h
      · rcases List.mem_singleton.mp h with h1
        subst h1
        exact ⟨List.mem_cons_self f rest, osRemove_not_failed hnf, hsize⟩
      · rename_i hcont
        rcases List.mem_cons.mp h with h1 | h1
        · subst h1
          exact ⟨List.mem_cons_self f rest, osRemove_not_failed hnf, hsize⟩
        · obtain ⟨h2, h3, h4⟩ := ih _ _ _ (by omega) e h1
          rw [osRemove_failing] at h3
          exact ⟨List.mem_cons_of_mem f h2, h3, h4⟩

lemma processBatch_deleted_sublist (low : Int) (cands : List FileRecord) :
    ∀ (db : DB) (fs : FS) (size : Int),
      ((processBatch low db fs size cands).deleted.map (fun e => e.record)).Sublist cands := by
  induction cands with
  | nil => intro db fs size; simp [processBatch]
  | cons f rest ih =>
    intro db fs size
    simp only [processBatch]
    split
    · exact List.Sublist.cons f (ih db _ size)
    · split
      · simp
      · simp only [List.map_cons]
        exact List.cons_sublist_cons.mpr (ih _ _ _)

lemma processBatch_count (low : Int) (cands : List FileRecord) :
    ∀ (db : DB) (fs : FS) (size : Int),
      (processBatch low db fs size cands).count
        = (processBatch low db fs size cands).deleted.length := by
  induction cands with
  | nil => intro db fs size; rfl
  | cons f rest ih =>
    intro db fs size
    simp only [processBatch]
    split
    · exact ih db _ size
    · split
      · rfl
      · simp only [List.length_cons]
        rw [ih]

lemma processBatch_totals (low : Int) (cands : List FileRecord) :
    ∀ (db : DB) (fs : FS) (size : Int),
      List.Chain' (fun a b => b.totalBefore = a.totalBefore - a.record.size)
        (processBatch low db fs size cands).deleted ∧
      (∀ e, (processBatch low db fs size cands).deleted.head? = some e →
        e.totalBefore = size) ∧
      ((processBatch low db fs size cands).deleted = [] →
        (processBatch low db fs size cands).size = size) ∧
      (∀ e, (processBatch low db fs size cands).deleted.getLast? = some e →
        (processBatch low db fs size cands).size = e.totalBefore - e.record.size) := by
  induction cands with
  | nil =>
    intro db fs size
    refine ⟨List.chain'_nil, ?_, fun _ => rfl, ?_⟩ <;> intro e h <;> cases h
  | cons f rest ih =>
    intro db fs size
    simp only [processBatch]
    split
    · exact ih db _ size
    · split
      · refine ⟨List.chain'_singleton _, ?_, ?_, ?_⟩
        · intro e h
          rcases Option.some.inj h with h1
          rw [← h1]
        · intro h; cases h
        · intro e h
          simp only [List.getLast?_singleton] at h
          rcases Option.some.inj h with h1
          rw [← h1]
      · obtain ⟨ihc, ihh, ihn, ihl⟩ := ih (removeFile db f.path) (osRemove fs f.path).2 (size - f.size)
        refine ⟨?_, ?_, ?_, ?_⟩
        · rw [List.chain'_cons']
          refine ⟨?_, ihc⟩
          intro y hy
          rw [ihh y hy]
        · intro e h
          rcases Option.some.inj h with h1
          rw [← h1]
        · intro h; cases h
        · intro e h
          rcases hd : (processBatch low (removeFile db f.path) (osRemove fs f.path).2
              (size - f.size) rest).deleted with _ | ⟨e1, l1⟩
          · rw [hd] at h
            simp only [List.getLast?_singleton] at h
            rcases Option.some.inj h with h1
            subst h1
            simpa using ihn hd
          · rw [hd, List.getLast?_cons_cons] at h
            refine ihl e ?_
            rw [hd]
            exact h

lemma processBatch_complete (low : Int) (cands : List FileRecord) :
    ∀ (db : DB) (fs : FS) (size : Int),
      (processBatch low db fs size cands).size ≤ low ∨
      (∀ f ∈ cands, f.path ∉ fs.failing →
        ∀ r ∈ (processBatch low db fs size cands).db.recs, r.path ≠ f.path) := by
  induction cands with
  | nil =>
    intro db fs size
    right
    intro f hf
    cases hf
  | cons f rest ih =>
    intro db fs size
    simp only [processBatch]
    split
    · rename_i hfail
      rcases ih db (osRemove fs f.path).2 size with h | h
      · left; exact h
      · right
        intro g hg hgf r hr
        rcases List.mem_cons.mp hg with h1 | h1
        · subst h1
          exact absurd (osRemove_failed_mem hfail) hgf
        · refine h g h1 ?_ r hr
          rw [osRemove_failing]
          exact hgf
    · split
      · rename_i hbreak
        left; exact hbreak
      · rcases ih (removeFile db f.path) (osRemove fs f.path).2 (size - f.size) with h | h
        · left; exact h
        · right
          intro g hg hgf r hr
          rcases List.mem_cons.mp hg with h1 | h1
          · subst h1
            exact mem_removeFile_ne (processBatch_db_sub low rest _ _ _ r hr)
          · refine h g h1 ?_ r hr
            rw [osRemove_failing]
            exact hgf

lemma mem_getPruneCandidates {db : DB} {n : Nat} {c : FileRecord}
    (h : c ∈ getPruneCandidates db n) :
    c ∈ db.recs ∧ c.status = FileStatus.uploaded := by
  unfold getPruneCandidates at h
  have h1 := List.mem_of_mem_take h
  have h2 := (List.perm_insertionSort modTimeLe
    (db.recs.filter (fun r => r.status == FileStatus.uploaded))).mem_iff.mp h1
  simp only [List.mem_filter, beq_iff_eq] at h2
  exact h2

lemma sorted_getPruneCandidates (db : DB) (n : Nat) :
    List.Pairwise modTimeLe (getPruneCandidates db n) := by
  unfold getPruneCandidates
  exact List.Pairwise.sublist (List.take_sublist n _)
    (List.sorted_insertionSort modTimeLe _)

lemma getPruneCandidates_rest {db : DB} {n : Nat} {r : FileRecord}
    (h1 : r ∈ db.recs) (h2 : r.status = FileStatus.uploaded)
    (h3 : r ∉ getPruneCandidates db n) :
    ∀ c ∈ getPruneCandidates db n, c.modTime ≤ r.modTime := by
  intro c hc
  have hr : r ∈ List.insertionSort modTimeLe
      (db.recs.filter (fun q => q.status == FileStatus.uploaded)) := by
    refine (List.perm_insertionSort modTimeLe _).mem_iff.mpr ?_
    simp only [List.mem_filter, beq_iff_eq]
    exact ⟨h1, h2⟩
  have hsplit := List.take_append_drop n (List.insertionSort modTimeLe
      (db.recs.filter (fun q => q.status == FileStatus.uploaded)))
  have hrd : r ∈ List.drop n (List.insertionSort modTimeLe
      (db.recs.filter (fun q => q.status == FileStatus.uploaded))) := by
    rcases List.mem_append.mp (by rw [hsplit]; exact hr) with h | h
    · exact absurd h h3
    · exact h
  have hp : List.Pairwise modTimeLe (List.take n (List.insertionSort modTimeLe
      (db.recs.filter (fun q => q.status == FileStatus.uploaded)))
      ++ List.drop n (List.insertionSort modTimeLe
      (db.recs.filter (fun q => q.status == FileStatus.uploaded)))) := by
    rw [hsplit]
    exact List.sorted_insertionSort modTimeLe _
  exact (List.pairwise_append.mp hp).2.2 c hc r hrd

lemma modFloor_le {db : DB} {r : FileRecord} (h : r ∈ db.recs) :
    modFloor db ≤ r.modTime := by
  unfold modFloor
  have : ∀ (l : List Int) (a : Int) (x : Int), x ∈ l → l.foldr min a ≤ x := by
    intro l
    induction l with
    | nil => intro a x hx; cases hx
    | cons y ys ih =>
      intro a x hx
      rcases List.mem_cons.mp hx with h1 | h1
      · subst h1
        exact min_le_left _ _
      · exact le_trans (min_le_right _ _) (ih a x h1)
  exact this _ 0 r.modTime (List.mem_map_of_mem _ h)

lemma mem_of_getLast?_eq {α : Type} {l : List α} {a : α}
    (h : l.getLast? = some a) : a ∈ l := by
  cases l with
  | nil => cases h
  | cons x xs =>
    rw [List.getLast?_eq_getLast _ (by simp)] at h
    rcases Option.some.inj h with h1
    rw [← h1]
    exact List.getLast_mem _

lemma pruneLoop_of_le (low : Int) (batch : Nat) (fuel : Nat) (db : DB) (fs : FS)
    (size : Int) (h : ¬ size > low) :
    pruneLoop low batch fuel db fs size
      = { db := db, fs := fs, size := size,
          unlinked := [], deleted := [], backpressure := false } := by
  cases fuel with
  | zero => rfl
  | succ n =>
    simp only [pruneLoop]
    rw [if_neg h]

lemma pruneLoop_unlinked (low : Int) (batch : Nat) :
    ∀ (fuel : Nat) (db : DB) (fs : FS) (size : Int) (p : String),
      p ∈ (pruneLoop low batch fuel db fs size).unlinked →
      ∃ r ∈ db.recs, r.path = p ∧ r.status = FileStatus.uploaded := by
  intro fuel
  induction fuel with
  | zero => intro db fs size p h; cases h
  | succ n ih =>
    intro db fs size p h
    simp only [pruneLoop] at h
    split at h
    · split at h
      · cases h
      · split at h
        · obtain ⟨f, hf, hfp⟩ := processBatch_unlinked low _ db fs size p h
          obtain ⟨hmem, hst⟩ := mem_getPruneCandidates hf
          exact ⟨f, hmem, hfp, hst⟩
        · rcases List.mem_append.mp h with h1 | h1
          · obtain ⟨f, hf, hfp⟩ := processBatch_unlinked low _ db fs size p h1
            obtain ⟨hmem, hst⟩ := mem_getPruneCandidates hf
            exact ⟨f, hmem, hfp, hst⟩
          · obtain ⟨r, hr, hrp, hrs⟩ := ih _ _ _ p h1
            exact ⟨r, processBatch_db_sub low _ db fs size r hr, hrp, hrs⟩
    · cases h

lemma pruneLoop_deleted (low : Int) (batch : Nat) :
    ∀ (fuel : Nat) (db : DB) (fs : FS) (size : Int) (m : Int),
      (∀ r ∈ db.recs, r.status = FileStatus.uploaded → r.path ∉ fs.failing →
        m ≤ r.modTime) →
      (∀ e ∈ (pruneLoop low batch fuel db fs size).deleted,
        e.record ∈ db.recs ∧ e.record.status = FileStatus.uploaded ∧
        low < e.totalBefore ∧ m ≤ e.record.modTime) ∧
      List.Chain' (fun a b => a.record.modTime ≤ b.record.modTime)
        (pruneLoop low batch fuel db fs size).deleted ∧
      List.Chain' (fun a b => b.totalBefore = a.totalBefore - a.record.size)
        (pruneLoop low batch fuel db fs size).deleted ∧
      (∀ e, (pruneLoop low batch fuel db fs size).deleted.head? = some e →
        e.totalBefore = size) := by
  intro fuel
  induction fuel with
  | zero =>
    intro db fs size m hm
    exact ⟨fun e h => absurd h (List.not_mem_nil e), List.chain'_nil, List.chain'_nil,
      fun e h => by cases h⟩
  | succ n ih =>
    intro db fs size m hm
    simp only [pruneLoop]
    split
    case isFalse =>
      exact ⟨fun e h => absurd h (List.not_mem_nil e), List.chain'_nil, List.chain'_nil,
        fun e h => by cases h⟩
    case isTrue hsize =>
    split
    case isTrue =>
      exact ⟨fun e h => absurd h (List.not_mem_nil e), List.chain'_nil, List.chain'_nil,
        fun e h => by cases h⟩
    case isFalse hne =>
    have hlow : low < size := hsize
    have hdel := processBatch_deleted low (getPruneCandidates db batch) db fs size hlow
    have hfirst : ∀ e ∈ (processBatch low db fs size (getPruneCandidates db batch)).deleted,
        e.record ∈ db.recs ∧ e.record.status = FileStatus.uploaded ∧
        low < e.totalBefore ∧ m ≤ e.record.modTime := by
      intro e he
      obtain ⟨h1, h2, h3⟩ := hdel e he
      obtain ⟨h4, h5⟩ := mem_getPruneCandidates h1
      exact ⟨h4, h5, h3, hm e.record h4 h5 h2⟩
    have hchainB : List.Chain' (fun a b => a.record.modTime ≤ b.record.modTime)
        (processBatch low db fs size (getPruneCandidates db batch)).deleted := by
      have hs := sorted_getPruneCandidates db batch
      have hsub := processBatch_deleted_sublist low (getPruneCandidates db batch) db fs size
      have hpw : List.Pairwise modTimeLe
          ((processBatch low db fs size (getPruneCandidates db batch)).deleted.map
            (fun e => e.record)) :=
        List.Pairwise.sublist hsub hs
      rw [List.pairwise_map] at hpw
      exact hpw.chain'
    obtain ⟨hctot, hhead, hnil, hlast⟩ :=
      processBatch_totals low (getPruneCandidates db batch) db fs size
    split
    case isTrue => exact ⟨hfirst, hchainB, hctot, hhead⟩
    case isFalse hcnt =>
    by_cases hout : (processBatch low db fs size (getPruneCandidates db batch)).size > low
    case neg =>
      rw [pruneLoop_of_le low batch n _ _ _ hout]
      simp only [List.append_nil]
      exact ⟨hfirst, hchainB, hctot, hhead⟩
    case pos =>
      have hlen : (processBatch low db fs size (getPruneCandidates db batch)).deleted ≠ [] := by
        intro hempty
        apply hcnt
        rw [processBatch_count, hempty]
        rfl
      rcases hgl : (processBatch low db fs size (getPruneCandidates db batch)).deleted.getLast?
        with _ | el
      · rw [List.getLast?_eq_none_iff] at hgl
        exact absurd hgl hlen
      have hel : el ∈ (processBatch low db fs size (getPruneCandidates db batch)).deleted :=
        mem_of_getLast?_eq hgl
      have helb := hfirst el hel
      have hm' : ∀ r ∈ (processBatch low db fs size (getPruneCandidates db batch)).db.recs,
          r.status = FileStatus.uploaded →
          r.path ∉ ((processBatch low db fs size (getPruneCandidates db batch)).fs).failing →
          el.record.modTime ≤ r.modTime := by
        intro r hr hru hrf
        rw [processBatch_failing] at hrf
        have hrdb : r ∈ db.recs := processBatch_db_sub low _ db fs size r hr
        rcases processBatch_complete low (getPruneCandidates db batch) db fs size with hcl | hcr
        · omega
        · by_cases hrc : r ∈ getPruneCandidates db batch
          · exact absurd rfl (hcr r hrc hrf r hr)
          · exact getPruneCandidates_rest hrdb hru hrc el.record (hdel el hel).1
      obtain ⟨rfirst, rchainM, rchainT, rhead⟩ := ih _ _ _ el.record.modTime hm'
      refine ⟨?_, ?_, ?_, ?_⟩
      · intro e he
        rcases List.mem_append.mp he with h1 | h1
        · exact hfirst e h1
        · obtain ⟨h2, h3, h4, h5⟩ := rfirst e h1
          exact ⟨processBatch_db_sub low _ db fs size _ h2, h3, h4,
            le_trans helb.2.2.2 h5⟩
      · rw [List.chain'_append]
        refine ⟨hchainB, rchainM, ?_⟩
        intro x hx y hy
        have hxel : x = el := by
          rw [hgl] at hx
          simp at hx
          exact hx.symm
        rw [hxel]
        exact (rfirst y (List.mem_of_mem_head? hy)).2.2.2
      · rw [List.chain'_append]
        refine ⟨hctot, rchainT, ?_⟩
        intro x hx y hy
        have hxel : x = el := by
          rw [hgl] at hx
          simp at hx
          exact hx.symm
        rw [hxel, rhead y hy]
        exact hlast el hgl
      · intro e he
        rw [List.head?_append] at he
        rcases hh0 : (processBatch low db fs size (getPruneCandidates db batch)).deleted.head?
          with _ | h0
        · rw [List.head?_eq_none_iff] at hh0
          exact absurd hh0 hlen
        · rw [hh0] at he
          rcases Option.some.inj he with h1
          rw [← h1]
          exact hhead h0 hh0

/-! ### Claim C1 -/

/-- C1: every unlink the pruner issues is for a path whose record was
UPLOADED (unlinks come only from GetPruneCandidates), and when no candidate
exists a cycle over the high watermark stops with the back-pressure warning
and no unlink and no deletion. -/
theorem pruner_unlinks_only_uploaded (db : DB) (fs : FS) (high low : Int) (batch : Nat) :
    (∀ p ∈ (pruneGo db fs high low batch).unlinked,
      ∃ r ∈ db.recs, r.path = p ∧ r.status = FileStatus.uploaded) ∧
    (getPruneCandidates db batch = [] →
      (pruneGo db fs high low batch).unlinked = [] ∧
      (pruneGo db fs high low batch).deleted = [] ∧
      (low < getTotalSize db → high < getTotalSize db →
        (pruneGo db fs high low batch).backpressure = true)) := by
  constructor
  · intro p hp
    simp only [pruneGo] at hp
    split at hp
    · cases hp
    · exact pruneLoop_unlinked low batch _ db fs _ p hp
  · intro hcand
    simp only [pruneGo]
    split
    case isTrue h =>
      refine ⟨rfl, rfl, ?_⟩
      intro _ h2
      omega
    case isFalse h =>
      simp only [pruneLoop]
      split
      case isTrue hgt =>
        rw [hcand]
        simp
      case isFalse hgt =>
        refine ⟨rfl, rfl, ?_⟩
        intro h1 _
        exact absurd h1 hgt

/-- Witness for C1 at the E4 store: the first unlinked path has an UPLOADED
record. -/
theorem pruner_unlinks_only_uploaded_witness :
    ("/w/f1") ∈ (pruneGo e4db e4fs 80 40 10).unlinked ∧
    ∃ r ∈ e4db.recs, r.path = ("/w/f1") ∧ r.status = FileStatus.uploaded :=
  ⟨by decide,
    (pruner_unlinks_only_uploaded e4db e4fs 80 40 10).1 ("/w/f1") (by decide)⟩

/-! ### Claim C6 -/

/-- C6: in any prune cycle only UPLOADED records are deleted, the deletions
are non-decreasing in mod_time, the running total decreases by each deleted
size starting from GetTotalSize and every deletion happens strictly above
the low watermark; concretely, scenario E4 (budget 100 bytes, watermarks
80 and 40 percent, six 20-byte UPLOADED files) removes exactly the four
oldest files and leaves total size 40. -/
theorem prune_lrm_watermark :
    (∀ (db : DB) (fs : FS) (high low : Int) (batch : Nat),
      (∀ e ∈ (pruneGo db fs high low batch).deleted,
        e.record ∈ db.recs ∧ e.record.status = FileStatus.uploaded ∧
        low < e.totalBefore) ∧
      List.Chain' (fun a b => a.record.modTime ≤ b.record.modTime)
        (pruneGo db fs high low batch).deleted ∧
      List.Chain' (fun a b => b.totalBefore = a.totalBefore - a.record.size)
        (pruneGo db fs high low batch).deleted ∧
      (∀ e, (pruneGo db fs high low batch).deleted.head? = some e →
        e.totalBefore = getTotalSize db)) ∧
    ((pruneCycle e4db e4fs 100 80 40 10).deleted.map
        (fun e => (e.record.path, e.totalBefore))
      = [("/w/f1", 120), ("/w/f2", 100), ("/w/f3", 80), ("/w/f4", 60)] ∧
     (pruneCycle e4db e4fs 100 80 40 10).db.recs.map (fun r => r.path)
      = ["/w/f5", "/w/f6"] ∧
     getTotalSize (pruneCycle e4db e4fs 100 80 40 10).db = 40 ∧
     (pruneCycle e4db e4fs 100 80 40 10).size = 40 ∧
     ((pruneCycle e4db e4fs 100 80 40 10).fs).files = ["/w/f5", "/w/f6"]) := by
  constructor
  · intro db fs high low batch
    have hm := pruneLoop_deleted low batch (db.recs.length + 1) db fs (getTotalSize db)
      (modFloor db) (fun r hr _ _ => modFloor_le hr)
    simp only [pruneGo]
    split
    · exact ⟨fun e h => absurd h (List.not_mem_nil e), List.chain'_nil, List.chain'_nil,
        fun e h => by cases h⟩
    · obtain ⟨h1, h2, h3, h4⟩ := hm
      exact ⟨fun e he => ⟨(h1 e he).1, (h1 e he).2.1, (h1 e he).2.2.1⟩, h2, h3, h4⟩
  · exact ⟨by decide, by decide, by decide, by decide, by decide⟩

/-- Witness for C6 at the E4 scenario: the first eviction event concerns an
UPLOADED record of the store, above the low watermark. -/
theorem prune_lrm_watermark_witness :
    e4evt ∈ (pruneGo e4db e4fs 80 40 10).deleted ∧
    (e4evt.record ∈ e4db.recs ∧ e4evt.record.status = FileStatus.uploaded ∧
      (40 : Int) < e4evt.totalBefore) :=
  ⟨by decide, (prune_lrm_watermark.1 e4db e4fs 80 40 10).1 e4evt (by decide)⟩

/-! ### Path lemmas for the metadata round trip -/

lemma splitSep_ne_nil (s : GoStr) : splitSep s ≠ [] := by
  induction s with
  | nil => simp [splitSep]
  | cons c rest ih =>
    simp only [splitSep]
    split
    · simp
    · rcases h : splitSep rest with _ | ⟨x, xs⟩
      · simp
      · simp [h]

lemma splitSep_slash_cons (s : GoStr) : splitSep ('/' :: s) = [] :: splitSep s := by
  simp [splitSep]

lemma splitSep_append (a b : GoStr) :
    splitSep (a ++ '/' :: b) = splitSep a ++ splitSep b := by
  induction a with
  | nil => simp [splitSep_slash_cons, splitSep]
  | cons c a' ih =>
    by_cases hc : c = '/'
    · subst hc
      rw [List.cons_append, splitSep_slash_cons, splitSep_slash_cons, ih]
      rfl
    · rw [List.cons_append]
      simp only [splitSep, if_neg hc]
      rw [ih]
      rcases h : splitSep a' with _ | ⟨x, xs⟩
      · exact absurd h (splitSep_ne_nil a')
      · simp

lemma splitSep_no_slash {c : GoStr} (h : '/' ∉ c) : splitSep c = [c] := by
  induction c with
  | nil => rfl
  | cons ch c' ih =>
    have hch : ch ≠ '/' := fun he => h (he ▸ List.mem_cons_self ch c')
    have hc' : '/' ∉ c' := fun hm => h (List.mem_cons_of_mem ch hm)
    simp only [splitSep, if_neg hch, ih hc']

lemma splitSep_interSep {cs : List GoStr} (hne : cs ≠ [])
    (hs : ∀ c ∈ cs, '/' ∉ c) : splitSep (interSep cs) = cs := by
  induction cs with
  | nil => exact absurd rfl hne
  | cons c rest ih =>
    cases rest with
    | nil =>
      simp only [interSep]
      exact splitSep_no_slash (hs c (List.mem_cons_self c []))
    | cons c2 rest2 =>
      have : interSep (c :: c2 :: rest2) = c ++ '/' :: interSep (c2 :: rest2) := rfl
      rw [this, splitSep_append, splitSep_no_slash (hs c (List.mem_cons_self c _)),
        ih (by simp) (fun x hx => hs x (List.mem_cons_of_mem c hx))]
      rfl

lemma mem_splitSep_no_slash {s : GoStr} {c : GoStr} (h : c ∈ splitSep s) : '/' ∉ c := by
  induction s generalizing c with
  | nil =>
    simp [splitSep] at h
    simp [h]
  | cons ch s' ih =>
    simp only [splitSep] at h
    split at h
    · rcases List.mem_cons.mp h with h1 | h1
      · simp [h1]
      · exact ih h1
    · rename_i hch
      rcases hsp : splitSep s' with _ | ⟨x, xs⟩
      · exact absurd hsp (splitSep_ne_nil s')
      · rw [hsp] at h
        rcases List.mem_cons.mp h with h1 | h1
        · subst h1
          intro hm
          rcases List.mem_cons.mp hm with h2 | h2
          · exact hch h2.symm
          · exact ih (by rw [hsp]; exact List.mem_cons_self x xs) h2
        · exact ih (by rw [hsp]; exact List.mem_cons_of_mem x h1)

lemma interSep_head {c : GoStr} (rest : List GoStr) (h : c ≠ []) :
    (interSep (c :: rest)).head? = c.head? := by
  cases rest with
  | nil => rfl
  | cons c2 rest2 =>
    have : interSep (c :: c2 :: rest2) = c ++ '/' :: interSep (c2 :: rest2) := rfl
    rw [this]
    cases c with
    | nil => exact absurd rfl h
    | cons x xs => rfl

lemma cleanPush_push {isAbs : Bool} {st : List GoStr} {c : GoStr} (h : pushComp c) :
    cleanPush isAbs st c = c :: st := by
  obtain ⟨h1, h2, h3⟩ := h
  unfold cleanPush
  rw [if_neg (by simp [h1, h2]), if_neg h3]

lemma foldl_cleanPush_pushOnly {isAbs : Bool} (ds : List GoStr)
    (h : ∀ c ∈ ds, pushComp c) :
    ∀ st, ds.foldl (cleanPush isAbs) st = ds.reverse ++ st := by
  induction ds with
  | nil => intro st; rfl
  | cons d ds' ih =>
    intro st
    rw [List.foldl_cons, cleanPush_push (h d (List.mem_cons_self d ds')),
      ih (fun c hc => h c (List.mem_cons_of_mem d hc)) (d :: st)]
    simp

lemma cleanParts_append_pushOnly (isAbs : Bool) (cs ds : List GoStr)
    (h : ∀ c ∈ ds, pushComp c) :
    cleanParts isAbs (cs ++ ds) = cleanParts isAbs cs ++ ds := by
  unfold cleanParts
  rw [List.foldl_append, foldl_cleanPush_pushOnly ds h]
  simp

lemma cleanParts_pushOnly (isAbs : Bool) (cs : List GoStr)
    (h : ∀ c ∈ cs, pushComp c) : cleanParts isAbs cs = cs := by
  have h0 := cleanParts_append_pushOnly isAbs [] cs h
  simpa using h0

lemma cleanParts_nil_cons (isAbs : Bool) (cs : List GoStr) :
    cleanParts isAbs ([] :: cs) = cleanParts isAbs cs := by
  unfold cleanParts
  rw [List.foldl_cons]
  have : cleanPush isAbs [] [] = [] := by
    unfold cleanPush
    rw [if_pos (Or.inl rfl)]
  rw [this]

lemma cleanPush_stack_nosep {isAbs : Bool} {st : List GoStr} {c : GoStr}
    (hst : ∀ x ∈ st, x ≠ [] ∧ '/' ∉ x) (hc : '/' ∉ c) :
    ∀ x ∈ cleanPush isAbs st c, x ≠ [] ∧ '/' ∉ x := by
  intro x hx
  unfold cleanPush at hx
  split at hx
  · exact hst x hx
  · split at hx
    · rename_i hne hdd
      cases st with
      | nil =>
        by_cases habs : isAbs = true
        · rw [if_pos habs] at hx
          cases hx
        · rw [if_neg habs] at hx
          have h1 := List.mem_singleton.mp hx
          subst h1
          subst hdd
          exact ⟨by decide, by decide⟩
      | cons t ts =>
        dsimp only at hx
        by_cases ht : t = ['.', '.']
        · rw [if_pos ht] at hx
          rcases List.mem_cons.mp hx with h1 | h1
          · subst h1
            subst hdd
            exact ⟨by decide, by decide⟩
          · exact hst x h1
        · rw [if_neg ht] at hx
          exact hst x (List.mem_cons_of_mem t hx)
    · rename_i hne hdd
      rcases List.mem_cons.mp hx with h1 | h1
      · subst h1
        exact ⟨fun hnil => hne (Or.inl hnil), hc⟩
      · exact hst x h1

lemma foldl_cleanPush_stack_nosep (isAbs : Bool) (cs : List GoStr)
    (hcs : ∀ c ∈ cs, '/' ∉ c) :
    ∀ st, (∀ x ∈ st, x ≠ [] ∧ '/' ∉ x) →
      ∀ x ∈ cs.foldl (cleanPush isAbs) st, x ≠ [] ∧ '/' ∉ x := by
  induction cs with
  | nil => intro st hst x hx; exact hst x hx
  | cons c cs' ih =>
    intro st hst x hx
    rw [List.foldl_cons] at hx
    exact ih (fun d hd => hcs d (List.mem_cons_of_mem c hd)) _
      (cleanPush_stack_nosep hst (hcs c (List.mem_cons_self c cs'))) x hx

lemma cleanParts_nosep {isAbs : Bool} {cs : List GoStr}
    (hcs : ∀ c ∈ cs, '/' ∉ c) :
    ∀ x ∈ cleanParts isAbs cs, x ≠ [] ∧ '/' ∉ x := by
  intro x hx
  unfold cleanParts at hx
  rw [List.mem_reverse] at hx
  exact foldl_cleanPush_stack_nosep isAbs cs hcs [] (fun y hy => absurd hy (List.not_mem_nil y))
    x hx

lemma cleanPush_abs_pushOnly {st : List GoStr} {c : GoStr}
    (hst : ∀ x ∈ st, pushComp x) :
    ∀ x ∈ cleanPush true st c, pushComp x := by
  intro x hx
  unfold cleanPush at hx
  split at hx
  · exact hst x hx
  · split at hx
    · cases st with
      | nil =>
        dsimp only at hx
        rw [if_pos rfl] at hx
        cases hx
      | cons t ts =>
        dsimp only at hx
        by_cases ht : t = ['.', '.']
        · exact absurd ht (hst t (List.mem_cons_self t ts)).2.2
        · rw [if_neg ht] at hx
          exact hst x (List.mem_cons_of_mem t hx)
    · rename_i hne hdd
      rcases List.mem_cons.mp hx with h1 | h1
      · subst h1
        exact ⟨fun h => hne (Or.inl h), fun h => hne (Or.inr h), hdd⟩
      · exact hst x h1

lemma cleanParts_abs_pushOnly (cs : List GoStr) :
    ∀ x ∈ cleanParts true cs, pushComp x := by
  have main : ∀ (l : List GoStr) (st : List GoStr), (∀ x ∈ st, pushComp x) →
      ∀ x ∈ l.foldl (cleanPush true) st, pushComp x := by
    intro l
    induction l with
    | nil => intro st hst x hx; exact hst x hx
    | cons c l' ih =>
      intro st hst x hx
      rw [List.foldl_cons] at hx
      exact ih _ (cleanPush_abs_pushOnly hst) x hx
  intro x hx
  unfold cleanParts at hx
  rw [List.mem_reverse] at hx
  exact main cs [] (fun y hy => absurd hy (List.not_mem_nil y)) x hx

lemma cleanPush_dotdot_stack (j : Nat) :
    cleanPush false (List.replicate j ['.', '.']) ['.', '.']
      = List.replicate (j + 1) ['.', '.'] := by
  cases j with
  | zero => decide
  | succ j0 =>
    unfold cleanPush
    rw [if_neg (by decide), if_pos rfl, List.replicate_succ]
    dsimp only
    rw [if_pos rfl, ← List.replicate_succ, ← List.replicate_succ]

lemma foldl_cleanPush_rel_shape (cs : List GoStr) :
    ∀ (j : Nat) (ns : List GoStr), (∀ x ∈ ns, pushComp x) →
      ∃ (j' : Nat) (ns' : List GoStr),
        cs.foldl (cleanPush false) (ns ++ List.replicate j ['.', '.'])
          = ns' ++ List.replicate j' ['.', '.'] ∧ (∀ x ∈ ns', pushComp x) := by
  induction cs with
  | nil => intro j ns hns; exact ⟨j, ns, rfl, hns⟩
  | cons c cs' ih =>
    intro j ns hns
    rw [List.foldl_cons]
    by_cases h1 : c = [] ∨ c = ['.']
    · have hskip : cleanPush false (ns ++ List.replicate j ['.', '.']) c
          = ns ++ List.replicate j ['.', '.'] := by
        unfold cleanPush
        rw [if_pos h1]
      rw [hskip]
      exact ih j ns hns
    · by_cases h2 : c = ['.', '.']
      · cases ns with
        | nil =>
          subst h2
          rw [List.nil_append, cleanPush_dotdot_stack j]
          have := ih (j + 1) [] (fun x hx => absurd hx (List.not_mem_nil x))
          rw [List.nil_append] at this
          exact this
        | cons t ts =>
          have ht := (hns t (List.mem_cons_self t ts)).2.2
          have hpop : cleanPush false ((t :: ts) ++ List.replicate j ['.', '.']) c
              = ts ++ List.replicate j ['.', '.'] := by
            subst h2
            unfold cleanPush
            rw [if_neg (by decide), if_pos rfl, List.cons_append]
            dsimp only
            rw [if_neg ht]
          rw [hpop]
          exact ih j ts (fun x hx => hns x (List.mem_cons_of_mem t hx))
      · have hcp : pushComp c := ⟨fun h => h1 (Or.inl h), fun h => h1 (Or.inr h), h2⟩
        rw [cleanPush_push hcp, ← List.cons_append]
        exact ih j (c :: ns) (fun x hx => by
          rcases List.mem_cons.mp hx with h3 | h3
          · subst h3; exact hcp
          · exact hns x h3)

lemma cleanParts_rel_shape (cs : List GoStr) :
    ∃ (j : Nat) (ns : List GoStr),
      cleanParts false cs = List.replicate j ['.', '.'] ++ ns ∧
      ∀ x ∈ ns, pushComp x := by
  obtain ⟨j', ns', heq, hns⟩ :=
    foldl_cleanPush_rel_shape cs 0 [] (fun x hx => absurd hx (List.not_mem_nil x))
  simp only [List.replicate_zero, List.append_nil, List.nil_append] at heq
  refine ⟨j', ns'.reverse, ?_, fun x hx => hns x (List.mem_reverse.mp hx)⟩
  unfold cleanParts
  rw [heq, List.reverse_append, List.reverse_replicate]

lemma cleanParts_replicate_append (j : Nat) (ns : List GoStr)
    (hns : ∀ x ∈ ns, pushComp x) :
    cleanParts false (List.replicate j ['.', '.'] ++ ns)
      = List.replicate j ['.', '.'] ++ ns := by
  have main : ∀ (jj : Nat) (i : Nat),
      (List.replicate jj ['.', '.'] ++ ns).foldl (cleanPush false)
          (List.replicate i ['.', '.'])
        = ns.reverse ++ List.replicate (i + jj) ['.', '.'] := by
    intro jj
    induction jj with
    | zero =>
      intro i
      rw [show (List.replicate 0 ['.', '.'] : List GoStr) = [] from rfl, List.nil_append,
        foldl_cleanPush_pushOnly ns hns (List.replicate i ['.', '.'])]
      have hi : i + 0 = i := by omega
      rw [hi]
    | succ j0 ih =>
      intro i
      rw [List.replicate_succ, List.cons_append, List.foldl_cons,
        cleanPush_dotdot_stack i, ih (i + 1)]
      have : i + 1 + j0 = i + (j0 + 1) := by omega
      rw [this]
  have h0 := main j 0
  unfold cleanParts
  rw [show (List.replicate 0 ['.', '.'] : List GoStr) = [] from rfl] at h0
  rw [h0, List.reverse_append, List.reverse_reverse, List.reverse_replicate]
  have : 0 + j = j := by omega
  rw [this]

lemma cleanParts_idem (isAbs : Bool) (cs : List GoStr) :
    cleanParts isAbs (cleanParts isAbs cs) = cleanParts isAbs cs := by
  cases isAbs with
  | true => exact cleanParts_pushOnly true _ (cleanParts_abs_pushOnly cs)
  | false =>
    obtain ⟨j, ns, heq, hns⟩ := cleanParts_rel_shape cs
    rw [heq, cleanParts_replicate_append j ns hns]

lemma goodComp_pushComp {c : GoStr} (h : goodComp c) : pushComp c :=
  ⟨h.1, h.2.1, h.2.2.1⟩

lemma parsePath_interSep {cs : List GoStr} (hne : cs ≠ [])
    (hcs : ∀ c ∈ cs, c ≠ [] ∧ '/' ∉ c) :
    parsePath (interSep cs) = (false, cs) := by
  unfold parsePath
  rcases cs with _ | ⟨c, rest⟩
  · exact absurd rfl hne
  · have hc := hcs c (List.mem_cons_self c rest)
    have hhead : (interSep (c :: rest)).head? = c.head? := interSep_head rest hc.1
    have habs : ((interSep (c :: rest)).head? == some '/') = false := by
      rw [hhead]
      rcases c with _ | ⟨ch, c'⟩
      · exact absurd rfl hc.1
      · have hch : ch ≠ '/' := fun he => hc.2 (he ▸ List.mem_cons_self ch c')
        simp [hch]
    rw [habs, splitSep_interSep hne (fun x hx => (hcs x hx).2)]

lemma parsePath_renderRel {cs : List GoStr} (hne : cs ≠ [])
    (hcs : ∀ c ∈ cs, c ≠ [] ∧ '/' ∉ c) :
    parsePath (renderPath false cs) = (false, cs) := by
  unfold renderPath
  rw [if_neg (by simp), if_neg hne]
  exact parsePath_interSep hne hcs

lemma parsePath_renderAbs {cs : List GoStr} (hne : cs ≠ [])
    (hcs : ∀ c ∈ cs, c ≠ [] ∧ '/' ∉ c) :
    parsePath (renderPath true cs) = (true, [] :: cs) := by
  unfold renderPath parsePath
  rw [if_pos rfl, splitSep_slash_cons,
    splitSep_interSep hne (fun x hx => (hcs x hx).2)]
  rfl

lemma cplParts_append (l r : List GoStr) : cplParts l (l ++ r) = l.length := by
  induction l with
  | nil => rfl
  | cons a as ih =>
    rw [List.cons_append]
    simp only [cplParts, eq_self_iff_true, if_true, ih, List.length_cons]

lemma goJoin_root (root : GoStr) (rest : List GoStr) (hne : rest ≠ [])
    (hg : ∀ c ∈ rest, goodComp c) :
    goJoin (root :: rest)
      = renderPath (parsePath root).1
          (cleanParts (parsePath root).1 (parsePath root).2 ++ rest) := by
  rcases rest with _ | ⟨r1, rest'⟩
  · exact absurd rfl hne
  have hr1 := hg r1 (List.mem_cons_self r1 rest')
  rcases root with _ | ⟨c0, root'⟩
  · have hparse : parsePath ([] : GoStr) = (false, [[]]) := rfl
    rw [hparse]
    have hclean : cleanParts false [[]] = [] := by decide
    simp only [hclean, List.nil_append]
    unfold goJoin
    rw [List.dropWhile_cons]
    simp only [show (([] : GoStr) == []) = true from rfl, if_true]
    rw [List.dropWhile_cons]
    have hr1e : (r1 == ([] : GoStr)) = false := by simp [hr1.1]
    rw [hr1e]
    simp only [Bool.false_eq_true, if_false]
    unfold goClean
    rw [parsePath_interSep (by simp) (fun x hx => ⟨(hg x hx).1, (hg x hx).2.2.2⟩)]
    dsimp only
    rw [cleanParts_pushOnly false _ (fun x hx => goodComp_pushComp (hg x hx))]
  · unfold goJoin
    rw [List.dropWhile_cons]
    have hc0 : ((c0 :: root' : GoStr) == []) = false := by simp
    rw [hc0]
    simp only [Bool.false_eq_true, if_false]
    have hinter : interSep ((c0 :: root') :: r1 :: rest')
        = (c0 :: root') ++ '/' :: interSep (r1 :: rest') := rfl
    rw [hinter]
    unfold goClean parsePath
    have habs : (((c0 :: root') ++ '/' :: interSep (r1 :: rest')).head? == some '/')
        = ((c0 :: root' : GoStr).head? == some '/') := rfl
    rw [habs, splitSep_append,
      splitSep_interSep (by simp) (fun x hx => (hg x hx).2.2.2),
      cleanParts_append_pushOnly _ _ _ (fun x hx => goodComp_pushComp (hg x hx))]

lemma goRel_base_append {base targ : GoStr} {rest : List GoStr} {tcs0 : List GoStr}
    (hne : rest ≠ [])
    (hparse : parsePath targ = ((parsePath base).1, tcs0))
    (hclean : cleanParts (parsePath base).1 tcs0
      = cleanParts (parsePath base).1 (parsePath base).2 ++ rest) :
    goRel base targ = some (interSep rest) := by
  unfold goRel
  rw [hparse]
  dsimp only
  rw [hclean]
  have hrlen : 0 < rest.length := by
    cases rest with
    | nil => exact absurd rfl hne
    | cons a l => simp
  rw [if_neg (fun hc => by
    have h2 := hc.2
    have := congrArg List.length h2
    rw [List.length_append] at this
    omega)]
  rw [if_neg (fun hc => hc rfl)]
  rw [cplParts_append, List.drop_length, List.drop_left]
  rw [if_neg (fun hc => by cases hc)]
  have hrep : List.replicate (List.length ([] : List GoStr)) (['.', '.'] : GoStr) = [] := rfl
  rw [hrep, List.nil_append]
  unfold renderPath
  rw [if_neg (by simp), if_neg hne]

lemma goRel_join (root : GoStr) (rest : List GoStr) (hne : rest ≠ [])
    (hg : ∀ c ∈ rest, goodComp c) :
    goRel root (renderPath (parsePath root).1
        (cleanParts (parsePath root).1 (parsePath root).2 ++ rest))
      = some (interSep rest) := by
  have hbcsOk : ∀ x ∈ cleanParts (parsePath root).1 (parsePath root).2,
      x ≠ [] ∧ '/' ∉ x :=
    cleanParts_nosep (fun c hc => mem_splitSep_no_slash hc)
  have hallOk : ∀ x ∈ cleanParts (parsePath root).1 (parsePath root).2 ++ rest,
      x ≠ [] ∧ '/' ∉ x := by
    intro x hx
    rcases List.mem_append.mp hx with h | h
    · exact hbcsOk x h
    · exact ⟨(hg x h).1, (hg x h).2.2.2⟩
  have hccne : cleanParts (parsePath root).1 (parsePath root).2 ++ rest ≠ [] := by
    intro h
    rcases List.append_eq_nil.mp h with ⟨_, h2⟩
    exact hne h2
  have hrest : ∀ c ∈ rest, pushComp c := fun c hc => goodComp_pushComp (hg c hc)
  cases habs : (parsePath root).1 with
  | false =>
    rw [habs] at hallOk hccne
    refine @goRel_base_append root _ rest
      (cleanParts false (parsePath root).2 ++ rest) hne ?_ ?_
    · rw [habs]
      exact parsePath_renderRel hccne hallOk
    · rw [habs]
      rw [cleanParts_append_pushOnly false _ rest hrest, cleanParts_idem]
  | true =>
    rw [habs] at hallOk hccne
    refine @goRel_base_append root _ rest
      ([] :: (cleanParts true (parsePath root).2 ++ rest)) hne ?_ ?_
    · rw [habs]
      exact parsePath_renderAbs hccne hallOk
    · rw [habs]
      rw [cleanParts_nil_cons, cleanParts_append_pushOnly true _ rest hrest,
        cleanParts_idem]

lemma goDir_interSep (L : List GoStr) (f : GoStr) (hL : L ≠ [])
    (hg : ∀ c ∈ L, goodComp c) (hf : goodComp f) :
    goDir (interSep (L ++ [f])) = interSep L := by
  have hall : ∀ c ∈ L ++ [f], c ≠ [] ∧ '/' ∉ c := by
    intro c hc
    rcases List.mem_append.mp hc with h | h
    · exact ⟨(hg c h).1, (hg c h).2.2.2⟩
    · rcases List.mem_singleton.mp h with h1
      subst h1
      exact ⟨hf.1, hf.2.2.2⟩
  have hp := parsePath_interSep (by simp) hall
  unfold goDir
  rw [hp]
  dsimp only
  rw [List.dropLast_concat,
    cleanParts_pushOnly false L (fun c hc => goodComp_pushComp (hg c hc))]
  unfold renderPath
  rw [if_neg (by simp), if_neg hL]

lemma interSep_ne_dot {L : List GoStr} (hL : L ≠ [])
    (hg : ∀ c ∈ L, goodComp c) : interSep L ≠ ['.'] := by
  rcases L with _ | ⟨c, rest⟩
  · exact absurd rfl hL
  rcases rest with _ | ⟨c2, rest2⟩
  · exact (hg c (List.mem_cons_self c [])).2.1
  · intro he
    have hlen := congrArg List.length he
    have hcne : 0 < c.length := by
      rcases hc : c with _ | _
      · exact absurd hc (hg c (List.mem_cons_self c _)).1
      · simp
    have : interSep (c :: c2 :: rest2) = c ++ '/' :: interSep (c2 :: rest2) := rfl
    rw [this] at hlen
    rw [List.length_append, List.length_cons] at hlen
    have h1 : (['.'] : GoStr).length = 1 := rfl
    rw [h1] at hlen
    omega

lemma metaLoop_good (L : List GoStr) :
    ∀ i, (∀ c ∈ L, goodComp c) →
      metaLoop i L = (L, (L.enumFrom i).map (fun p => (dirKey p.1, p.2))) := by
  induction L with
  | nil => intro i _; rfl
  | cons c rest ih =>
    intro i hg
    have hc := hg c (List.mem_cons_self c rest)
    simp only [metaLoop]
    rw [if_neg (by simp [hc.1, hc.2.1]),
      ih (i + 1) (fun x hx => hg x (List.mem_cons_of_mem c hx))]
    rw [List.enumFrom_cons]
    rfl

/-! ### Claim C9 -/

/-- C9 counterexample: the claim admits any list of components that are
non-empty, not dot and separator-free, but the component dotdot satisfies
all three and breaks the round trip: joining /data with [a, ..] and a
filename collapses under Clean, and the extracted context is empty rather
than [a, ..]. -/
theorem extract_metadata_not_all_components :
    (∀ c ∈ [("a").data, ("..").data], c ≠ [] ∧ c ≠ (".").data ∧ '/' ∉ c) ∧
    (extractMetadata (("/data").data)
        (goJoin [("/data").data, ("a").data, ("..").data, ("img.jpg").data])).1
      ≠ [("a").data, ("..").data] := by
  decide

/-- C9 amended: the round trip holds once dotdot components are excluded and
the filename is a proper base name: for every root, every non-empty list L
of components that are non-empty, not dot, not dotdot and separator-free,
and every such filename, the extracted context is L and the metadata maps
dir_i to L[i]. -/
theorem extract_metadata_roundtrip (root : GoStr) (L : List GoStr) (f : GoStr)
    (hL : L ≠ []) (hg : ∀ c ∈ L, goodComp c) (hf : goodComp f) :
    extractMetadata root (goJoin (root :: (L ++ [f])))
      = (L, L.enum.map (fun p => (dirKey p.1, p.2))) := by
  have hrest : (L ++ [f]) ≠ [] := by simp
  have hgr : ∀ c ∈ L ++ [f], goodComp c := by
    intro c hc
    rcases List.mem_append.mp hc with h | h
    · exact hg c h
    · rcases List.mem_singleton.mp h with h1
      subst h1
      exact hf
  rw [goJoin_root root (L ++ [f]) hrest hgr]
  unfold extractMetadata
  rw [goRel_join root (L ++ [f]) hrest hgr]
  dsimp only
  rw [goDir_interSep L f hL hg hf]
  rw [if_neg (interSep_ne_dot hL hg)]
  rw [splitSep_interSep hL (fun c hc => (hg c hc).2.2.2)]
  exact metaLoop_good L 0 hg

/-- Witness for the C9 amended theorem at the documented example: root /data
with components cam1, 2023 and filename img.jpg. -/
theorem extract_metadata_roundtrip_witness :
    (∀ c ∈ [("cam1").data, ("2023").data], goodComp c) ∧
    extractMetadata (("/data").data)
        (goJoin (("/data").data :: ([("cam1").data, ("2023").data] ++ [("img.jpg").data])))
      = ([("cam1").data, ("2023").data],
          [(("dir_0").data, ("cam1").data), (("dir_1").data, ("2023").data)]) := by
  have h := extract_metadata_roundtrip (("/data").data)
    [("cam1").data, ("2023").data] (("img.jpg").data)
    (by decide) (by decide) (by decide)
  exact ⟨by decide, by rw [h]; decide⟩

end FsIngest
